import Mathlib

/-
Verification of the Spike2 raw IO decoder (`neo/rawio/spike2rawio.py`,
class `Spike2RawIO`).  The Python code is shallowly embedded below:
numpy arrays become lists, ticks (i4 fields) become `Int`, sample counts
become `Nat`, float arithmetic is modelled exactly over `ℚ`, and fallible
operations return `Option`.
-/

namespace Spike2

/- ----------------------------------------------------------------- -/
/- Segmentation consistency check (`_parse_header`, lines 191-194)    -/
/- ----------------------------------------------------------------- -/

/-- Embedding of the pause-count consistency guard in `_parse_header`:
`all_nb_seg = np.array([v.size + 1 for v in all_gaps_block_ind.values()])`
followed by `if np.all(all_nb_seg[0] != all_nb_seg): raise NeoReadWriteError(...)`.
The argument is the list of per-channel segment counts (`gap count + 1`);
the result is the boolean value of the `if` guard, i.e. whether the
`NeoReadWriteError` is raised.  `np.all(x[0] != arr)` is `true` iff every
element of the array differs from the first element. -/
def pause_mismatch_raises (all_nb_seg : List Nat) : Bool :=
  all_nb_seg.all (fun n => all_nb_seg.headD 0 != n)

/- ----------------------------------------------------------------- -/
/- Stream grouping size check (`_parse_header`, lines 321-331)        -/
/- ----------------------------------------------------------------- -/

/-- Embedding of the per-segment group size guard in `_parse_header`
(grouped mode): `sig_sizes = np.array(sig_sizes)` followed by
`if np.all(sig_sizes != sig_sizes[0]): raise NeoReadWriteError(...)`.
The argument is the list of the bucket members' total sample counts for
one segment; the result is the boolean value of the `if` guard, i.e.
whether the fatal "use try_signal_grouping=False" error is raised. -/
def group_size_mismatch_raises (sig_sizes : List Nat) : Bool :=
  sig_sizes.all (fun s => sig_sizes.headD 0 != s)

/- ----------------------------------------------------------------- -/
/- Block records and the no-signal segmentation fallback              -/
/- (`_parse_header`, lines 175-189)                                   -/
/- ----------------------------------------------------------------- -/

/-- One entry of a channel's data-block index, as built in
`_parse_header` lines 134-154: `(pos, size, cumsum, start_time, end_time)`.
Only the fields used by the segmentation fallback are kept here
(`size` = `items`, `start_time`, `end_time`; ticks are i4, hence `Int`). -/
structure DataBlock where
  size : Nat
  start_time : Int
  end_time : Int
  deriving DecidableEq

/-- One iteration of the loop at lines 180-186: for a channel with at
least one block, `t_stop` is replaced by the channel's last block's
`end_time` when `t_stop` is `None` or smaller than it. -/
def fallback_step (t_stop : Option Int) (data_blocks : List DataBlock) : Option Int :=
  match data_blocks.getLast? with
  | none => t_stop
  | some b =>
    match t_stop with
    | none => some b.end_time
    | some t => if b.end_time > t then some b.end_time else some t

/-- The `t_stop` computed by the branch of `_parse_header` taken when
`all_gaps_block_ind` is empty (no analog channel of kind 1/9 with a
positive total sample count): a fold of `fallback_step` over all
channels' block indexes, starting from `None`. -/
def fallback_t_stop (channels : List (List DataBlock)) : Option Int :=
  channels.foldl fallback_step none

/-- `nb_segment = 1` in the no-signal branch (line 177). -/
def fallback_nb_segment : Nat := 1

/-- `self._seg_t_starts = [0]` in the no-signal branch (line 188). -/
def fallback_seg_t_starts : List Int := [0]

/-- `self._seg_t_stops = [t_stop]` in the no-signal branch (line 189);
the entry is `none` when no channel has any block. -/
def fallback_seg_t_stops (channels : List (List DataBlock)) : List (Option Int) :=
  [fallback_t_stop channels]

/-- The end ticks the claim speaks about: the last block's `end_time` of
every channel that has at least one block (`data_blocks[-1]["end_time"]`
for channels with `data_blocks.size > 0`). -/
def end_ticks (channels : List (List DataBlock)) : List Int :=
  channels.filterMap (fun c => (c.getLast?).map DataBlock.end_time)

/-- Embedding of `_segment_t_stop` (lines 395-396):
`return self._seg_t_stops[seg_index] * self._time_factor`.  When the
stored stop tick is `None` the Python multiplication raises a
`TypeError`; the failure is modelled by returning `none`. -/
def segment_t_stop (seg_t_stops : List (Option Int)) (time_factor : ℚ) (seg_index : Nat) :
    Option ℚ :=
  (seg_t_stops.getD seg_index none).map (fun t => (t : ℚ) * time_factor)

/- ----------------------------------------------------------------- -/
/- Per-stream signal size and start time                              -/
/- (`_get_signal_size` lines 398-405, `_get_signal_t_start` 407-413)  -/
/- ----------------------------------------------------------------- -/

/-- The per-segment data of one signal channel that `_get_signal_size`
and `_get_signal_t_start` consult: `self._by_seg_data_blocks[chan_id]`
reduced to the block `size` columns, and `self._sig_t_starts[chan_id]`
(start ticks, one per segment). -/
structure SigChanSeg where
  seg_block_sizes : List (List Nat)
  seg_start_ticks : List Int
  deriving DecidableEq

/-- Embedding of `_get_signal_size`: the stream's member channels (in
stream order) are `stream_channels`; the code takes
`chan_id0 = int(chan_ids[0])` and returns
`np.sum(self._by_seg_data_blocks[chan_id0][seg_index]["size"])`. -/
def get_signal_size (stream_channels : List SigChanSeg) (seg_index : Nat) : Nat :=
  ((stream_channels.headD ⟨[], []⟩).seg_block_sizes.getD seg_index []).sum

/-- Embedding of `_get_signal_t_start`: the code takes
`chan_id0 = int(chan_ids[0])` and returns
`self._sig_t_starts[chan_id0][seg_index] * self._time_factor`. -/
def get_signal_t_start (stream_channels : List SigChanSeg) (seg_index : Nat)
    (time_factor : ℚ) : ℚ :=
  (((stream_channels.headD ⟨[], []⟩).seg_start_ticks.getD seg_index 0 : Int) : ℚ) * time_factor

/- ----------------------------------------------------------------- -/
/- Sample interval (`get_sample_interval`, lines 677-685)             -/
/- ----------------------------------------------------------------- -/

/-- The global header fields consumed by `get_sample_interval`
(`system_id`, `us_per_time`, `time_per_adc` are i2 integers,
`dtime_base` is a float, modelled exactly as a rational). -/
structure GlobalInfo where
  system_id : Int
  us_per_time : Int
  time_per_adc : Int
  dtime_base : ℚ
  deriving DecidableEq

/-- The channel header fields consumed by `get_sample_interval`
(`divide` is the extra i2 field read for pre-6 files, `l_chan_dvd` is
the i4 field of the common channel record). -/
structure ChannelInfo where
  divide : Int
  l_chan_dvd : Int
  deriving DecidableEq

/-- Embedding of the module-level `get_sample_interval`:
`if info["system_id"] in [1, 2, 3, 4, 5]` the interval is
`(int(chan_info["divide"]) * info["us_per_time"] * info["time_per_adc"]) * 1e-6`,
otherwise `int(chan_info["l_chan_dvd"]) * info["us_per_time"] * info["dtime_base"]`.
The float literal `1e-6` is modelled as the exact rational. -/
def get_sample_interval (info : GlobalInfo) (chan_info : ChannelInfo) : ℚ :=
  if info.system_id = 1 ∨ info.system_id = 2 ∨ info.system_id = 3 ∨
      info.system_id = 4 ∨ info.system_id = 5 then
    ((chan_info.divide * info.us_per_time * info.time_per_adc : Int) : ℚ) * (1 / 1000000)
  else
    ((chan_info.l_chan_dvd * info.us_per_time : Int) : ℚ) * info.dtime_base

/-- The sampling-interval formula exactly as the claim words it: for the
older system identifiers (1-5), `divide * us_per_time * time_per_adc * 1e-6`;
for the newer ones, `l_chan_dvd * us_per_time * dtime_base`.  Stated as a
separate definition so the theorem compares the code against the claim. -/
def sample_interval_claim (info : GlobalInfo) (chan_info : ChannelInfo) : ℚ :=
  if info.system_id = 1 ∨ info.system_id = 2 ∨ info.system_id = 3 ∨
      info.system_id = 4 ∨ info.system_id = 5 then
    (chan_info.divide : ℚ) * (info.us_per_time : ℚ) * (info.time_per_adc : ℚ) * (1 / 1000000)
  else
    (chan_info.l_chan_dvd : ℚ) * (info.us_per_time : ℚ) * info.dtime_base

/- ----------------------------------------------------------------- -/
/- Helper lemmas for the segmentation fallback                        -/
/- ----------------------------------------------------------------- -/

lemma foldl_fallback_step_some (channels : List (List DataBlock)) (t : Int) :
    channels.foldl fallback_step (some t) = some ((end_ticks channels).foldl max t) := by
  induction channels generalizing t with
  | nil => rfl
  | cons c cs ih =>
    cases h : c.getLast? with
    | none =>
      simp only [List.foldl_cons, fallback_step, h, end_ticks, List.filterMap_cons,
        Option.map_none']
      exact ih t
    | some b =>
      simp only [List.foldl_cons, fallback_step, h, end_ticks, List.filterMap_cons,
        Option.map_some', List.foldl_cons]
      have hmax : (if b.end_time > t then some b.end_time else some t) =
          some (max t b.end_time) := by
        by_cases hbt : b.end_time > t
        · simp [hbt, max_eq_right (le_of_lt hbt)]
        · simp [hbt, max_eq_left (le_of_not_lt hbt)]
      rw [hmax]
      exact ih (max t b.end_time)

lemma fallback_t_stop_eq_max (channels : List (List DataBlock)) :
    fallback_t_stop channels = (end_ticks channels).max? := by
  induction channels with
  | nil => rfl
  | cons c cs ih =>
    cases h : c.getLast? with
    | none =>
      simp only [fallback_t_stop, List.foldl_cons, fallback_step, h] at ih ⊢
      simpa [end_ticks, List.filterMap_cons, h] using ih
    | some b =>
      simp only [fallback_t_stop, List.foldl_cons, fallback_step, h]
      rw [foldl_fallback_step_some]
      simp [end_ticks, List.filterMap_cons, h, List.max?]

/- ----------------------------------------------------------------- -/
/- Claim theorems C1, C2, C7, C8, C9, C10                             -/
/- ----------------------------------------------------------------- -/

/-- C1 (code bug): the guard `np.all(all_nb_seg[0] != all_nb_seg)` is
false for every nonempty array of per-channel segment counts, because
the first element is compared against itself.  In particular it is false
when the counts disagree (here `[1, 2]`: one channel with no gap, one
with a single gap), so `_parse_header` never raises the
`NeoReadWriteError` the claim requires. -/
theorem pause_mismatch_never_raises (c : Nat) (rest : List Nat) :
    pause_mismatch_raises (c :: rest) = false ∧ pause_mismatch_raises [1, 2] = false := by
  constructor
  · simp [pause_mismatch_raises]
  · decide

/-- C2 (code bug): the guard `np.all(sig_sizes != sig_sizes[0])` is
false for every nonempty list of member-channel sample counts, because
the first element is compared against itself.  In particular it is false
for a bucket whose two members have different per-segment sizes
(here `[5, 7]`), so grouped-mode parsing never raises the fatal
"use try_signal_grouping=False" error the claim requires. -/
theorem group_size_mismatch_never_raises (s : Nat) (rest : List Nat) :
    group_size_mismatch_raises (s :: rest) = false ∧
      group_size_mismatch_raises [5, 7] = false := by
  constructor
  · simp [group_size_mismatch_raises]
  · decide

/-- C7: when no analog channel qualifies for gap detection,
`_parse_header` produces exactly one segment whose start tick is `0` and
whose stop tick is the maximum, over all channels with at least one
block (event and spike channels included), of the channel's last block's
end tick. -/
theorem fallback_single_segment (channels : List (List DataBlock)) :
    fallback_nb_segment = 1 ∧
      fallback_seg_t_starts = [0] ∧
      fallback_seg_t_stops channels = [(end_ticks channels).max?] := by
  refine ⟨rfl, rfl, ?_⟩
  simp [fallback_seg_t_stops, fallback_t_stop_eq_max]

/-- C8: `get_sample_interval` computes the nominal sampling interval
version-dependently, and agrees with the claim's formulas: for the older
system identifiers (1-5), `divide * us_per_time * time_per_adc * 1e-6`;
for the newer ones, `l_chan_dvd * us_per_time * dtime_base`. -/
theorem get_sample_interval_eq_claim (info : GlobalInfo) (chan_info : ChannelInfo) :
    get_sample_interval info chan_info = sample_interval_claim info chan_info := by
  unfold get_sample_interval sample_interval_claim
  by_cases h : info.system_id = 1 ∨ info.system_id = 2 ∨ info.system_id = 3 ∨
      info.system_id = 4 ∨ info.system_id = 5
  · simp only [h, if_true]
    push_cast
    ring
  · simp only [h, if_false]
    push_cast
    ring

/-- C9: if every channel has zero data blocks, the no-signal branch of
`_parse_header` still succeeds and records the single segment's stop
tick as `None`, and the segment-stop query `_segment_t_stop` (which
multiplies the stored stop tick by the time factor) then fails (`none`)
instead of returning a time value. -/
theorem all_empty_t_stop_none (channels : List (List DataBlock)) (time_factor : ℚ)
    (h : ∀ c ∈ channels, c = []) :
    fallback_t_stop channels = none ∧
      segment_t_stop (fallback_seg_t_stops channels) time_factor 0 = none := by
  have hstop : fallback_t_stop channels = none := by
    rw [fallback_t_stop_eq_max]
    have : end_ticks channels = [] := by
      simp only [end_ticks, List.filterMap_eq_nil_iff]
      intro c hc
      rw [h c hc]
      rfl
    rw [this]
    rfl
  refine ⟨hstop, ?_⟩
  simp [segment_t_stop, fallback_seg_t_stops, hstop]

/-- C9 witness: a file with two channels, both without blocks. -/
theorem all_empty_t_stop_none_witness :
    fallback_t_stop [[], []] = none ∧
      segment_t_stop (fallback_seg_t_stops [[], []]) (1 / 2) 0 = none :=
  all_empty_t_stop_none [[], []] (1 / 2) (by decide)

/-- C10: `_get_signal_size` and `_get_signal_t_start` consult only the
first member channel of the stream: the reported size is the sum of the
first channel's block sizes for the segment, the reported start time is
the first channel's segment start tick times the time factor, and both
results are unchanged under any replacement of the other members. -/
theorem signal_size_start_first_channel_only (c0 : SigChanSeg)
    (rest rest2 : List SigChanSeg) (seg_index : Nat) (time_factor : ℚ) :
    get_signal_size (c0 :: rest) seg_index = (c0.seg_block_sizes.getD seg_index []).sum ∧
      get_signal_size (c0 :: rest) seg_index = get_signal_size (c0 :: rest2) seg_index ∧
      get_signal_t_start (c0 :: rest) seg_index time_factor =
        ((c0.seg_start_ticks.getD seg_index 0 : Int) : ℚ) * time_factor ∧
      get_signal_t_start (c0 :: rest) seg_index time_factor =
        get_signal_t_start (c0 :: rest2) seg_index time_factor :=
  ⟨rfl, rfl, rfl, rfl⟩

/- ----------------------------------------------------------------- -/
/- Spike/event extraction (`_count_in_time_slice` lines 463-481,      -/
/- `_get_internal_timestamp_` lines 483-531)                          -/
/- ----------------------------------------------------------------- -/

/-- One decoded entry of a marker/waveform block payload: the fields the
tick filter and the marker filter touch (`tick` and `marker` are i4). -/
structure SpikeEntry where
  tick : Int
  marker : Int
  deriving DecidableEq

/-- The per-entry filter shared by `_count_in_time_slice` and
`_get_internal_timestamp_`:
`keep = (ts >= lim0) & (ts <= lim1)` and, when a marker filter is set,
`keep &= (raw_data["marker"] & 255) == marker_filter`.  The low-byte
mask `& 255` is written as `% 256` (for any two's complement integer,
`x & 255 = x mod 256`, a value in `0..255`). -/
def keep_entry (lim0 lim1 : Int) (marker_filter : Option Int) (e : SpikeEntry) : Bool :=
  (decide (lim0 ≤ e.tick) && decide (e.tick ≤ lim1)) &&
    (match marker_filter with
     | none => true
     | some m => e.marker % 256 == m)

/-- The early-termination test `if ts[-1] > lim1: break` of both scan
loops, on the block's undecimated tick array.  (The Python code indexes
`ts[-1]` directly; both scans are only defined on blocks with at least
one item, which the theorems assume.) -/
def last_tick_after (b : List SpikeEntry) (lim1 : Int) : Bool :=
  match b.getLast? with
  | none => false
  | some e => decide (lim1 < e.tick)

/-- Embedding of `_count_in_time_slice`: scan the channel's block chain
in order, add `np.sum(keep)` for each block, and stop after the first
block whose last tick exceeds `lim1`. -/
def count_in_time_slice (blocks : List (List SpikeEntry)) (lim0 lim1 : Int)
    (marker_filter : Option Int) : Nat :=
  match blocks with
  | [] => 0
  | b :: rest =>
    let nb := (b.filter (keep_entry lim0 lim1 marker_filter)).length
    if last_tick_after b lim1 then nb
    else nb + count_in_time_slice rest lim0 lim1 marker_filter

/-- Embedding of the timestamp part of `_get_internal_timestamp_`: scan
the channel's block chain in order, append `ts[keep]` for each block,
stop after the first block whose last tick exceeds `lim1`, and
concatenate. -/
def internal_timestamps (blocks : List (List SpikeEntry)) (lim0 lim1 : Int)
    (marker_filter : Option Int) : List Int :=
  match blocks with
  | [] => []
  | b :: rest =>
    let ts := (b.filter (keep_entry lim0 lim1 marker_filter)).map SpikeEntry.tick
    if last_tick_after b lim1 then ts
    else ts ++ internal_timestamps rest lim0 lim1 marker_filter

/-- Embedding of the unit-id collection of `_parse_header` (lines
281-290, `ced_units` mode): the distinct values of `marker & 255` over
all blocks of a waveform-bearing channel, in sorted order
(`unit_ids.update(np.unique(raw_data["marker"] & 255))` per block, then
`sorted(list(unit_ids))`).  The low-byte mask is written as `% 256` as
in `keep_entry`. -/
def collect_unit_ids (blocks : List (List SpikeEntry)) : List Int :=
  ((blocks.flatten.map (fun e => e.marker % 256)).dedup).insertionSort (· ≤ ·)

/-- Embedding of `_spike_count` (lines 533-541) with `ced_units=True`:
`marker_filter = unit_id` and the tick window is the segment's full
range `[self._seg_t_starts[seg_index], self._seg_t_stops[seg_index]]`. -/
def spike_count (blocks : List (List SpikeEntry)) (lim0 lim1 : Int) (unit_id : Int) : Nat :=
  count_in_time_slice blocks lim0 lim1 (some unit_id)

/-- C4: for every block chain, tick window `[lim0, lim1]` and marker
filter, `_count_in_time_slice` returns exactly the length of the
timestamp array `_get_internal_timestamp_` returns for the same window
and filter; an empty window (`lim1 < lim0`) gives count `0` and an empty
sequence.  The hypothesis restricts to chains of nonempty blocks, on
which the `ts[-1]` accesses of both scans are defined. -/
theorem count_eq_timestamps_length (blocks : List (List SpikeEntry)) (lim0 lim1 : Int)
    (marker_filter : Option Int) (hne : ∀ b ∈ blocks, b ≠ []) :
    count_in_time_slice blocks lim0 lim1 marker_filter =
        (internal_timestamps blocks lim0 lim1 marker_filter).length ∧
      (lim1 < lim0 →
        count_in_time_slice blocks lim0 lim1 marker_filter = 0 ∧
          internal_timestamps blocks lim0 lim1 marker_filter = []) := by
  constructor
  · induction blocks with
    | nil => rfl
    | cons b rest ih =>
      have ih2 := ih (fun x hx => hne x (List.mem_cons_of_mem b hx))
      simp only [count_in_time_slice, internal_timestamps]
      by_cases hbrk : last_tick_after b lim1
      · simp [hbrk]
      · simp [hbrk, ih2]
  · intro hlim
    have hkeep : ∀ e, keep_entry lim0 lim1 marker_filter e = false := by
      intro e
      simp only [keep_entry, Bool.and_eq_false_iff]
      left
      by_cases h0 : lim0 ≤ e.tick
      · right
        simp only [decide_eq_false_iff_not, not_le]
        omega
      · left
        simp [h0]
    have hfil : ∀ b : List SpikeEntry, b.filter (keep_entry lim0 lim1 marker_filter) = [] := by
      intro b
      simp [List.filter_eq_nil_iff, hkeep]
    constructor
    · clear hne
      induction blocks with
      | nil => rfl
      | cons b rest ih =>
        simp only [count_in_time_slice, hfil, List.length_nil]
        by_cases hbrk : last_tick_after b lim1
        · simp [hbrk]
        · simp [hbrk, ih]
    · clear hne
      induction blocks with
      | nil => rfl
      | cons b rest ih =>
        simp only [internal_timestamps, hfil, List.map_nil]
        by_cases hbrk : last_tick_after b lim1
        · simp [hbrk]
        · simp [hbrk, ih]

/-- C4 witness: one block of two entries, window `[0, 10]`, marker
filter `1`: the count (1) equals the length of the extracted
timestamps (`[5]`). -/
theorem count_eq_timestamps_length_witness :
    count_in_time_slice [[⟨5, 1⟩, ⟨15, 2⟩]] 0 10 (some 1) =
        (internal_timestamps [[⟨5, 1⟩, ⟨15, 2⟩]] 0 10 (some 1)).length ∧
      ((10 : Int) < 0 →
        count_in_time_slice [[⟨5, 1⟩, ⟨15, 2⟩]] 0 10 (some 1) = 0 ∧
          internal_timestamps [[⟨5, 1⟩, ⟨15, 2⟩]] 0 10 (some 1) = []) :=
  count_eq_timestamps_length [[⟨5, 1⟩, ⟨15, 2⟩]] 0 10 (some 1) (by decide)

/-- The concrete channel of the C6 scenario: one block of four entries
whose marker low bytes are `0, 1, 1, 2`, with ticks inside the segment
range `[0, 40]`. -/
def c6_blocks : List (List SpikeEntry) := [[⟨10, 0⟩, ⟨20, 1⟩, ⟨30, 1⟩, ⟨40, 2⟩]]

/-- C6: with unit discrimination enabled, a waveform channel whose
blocks contain marker bytes `{0, 1, 1, 2}` produces exactly the three
units `0`, `1`, `2` (the distinct low-byte marker values, sorted), and
the spike count of unit `1` over the full segment range is `2`. -/
theorem unit_ids_scenario :
    collect_unit_ids c6_blocks = [0, 1, 2] ∧
      (collect_unit_ids c6_blocks).length = 3 ∧
      spike_count c6_blocks 0 40 1 = 2 := by
  decide

/- ----------------------------------------------------------------- -/
/- Per-segment splitting of a channel's block index                   -/
/- (`_parse_header`, lines 196-217)                                   -/
/- ----------------------------------------------------------------- -/

/-- `fisrt_bl` of the segment loop (lines 202-205): `0` for the first
segment, `gaps_block_ind[seg_ind - 1] + 1` afterwards. -/
def seg_first_bl (gaps : List Nat) (seg_ind : Nat) : Nat :=
  if seg_ind = 0 then 0 else gaps.getD (seg_ind - 1) 0 + 1

/-- `last_bl` of the segment loop (lines 208-211):
`gaps_block_ind[seg_ind]` before the last segment, `data_blocks.size - 1`
for the last one. -/
def seg_last_bl (gaps : List Nat) (nb_segment nblocks seg_ind : Nat) : Nat :=
  if seg_ind < nb_segment - 1 then gaps.getD seg_ind 0 else nblocks - 1

/-- `in_seg_data_block = data_blocks[fisrt_bl : last_bl + 1]` (line 215):
the sub-range of the channel's block index assigned to one segment.
The blocks are kept abstract (`α`); the cumulative-count recomputation of
line 216 rewrites a column in place and does not change which blocks the
sub-range holds. -/
def in_seg_data_block {α : Type} (blocks : List α) (gaps : List Nat)
    (nb_segment seg_ind : Nat) : List α :=
  (blocks.drop (seg_first_bl gaps seg_ind)).take
    (seg_last_bl gaps nb_segment blocks.length seg_ind + 1 - seg_first_bl gaps seg_ind)

/-- The full per-segment decomposition of one channel's block index:
the loop `for seg_ind in range(nb_segment)` with
`nb_segment = gaps_block_ind.size + 1`, collecting `in_seg_data_block`
for each segment in order (`self._by_seg_data_blocks[chan_id]`). -/
def by_seg_data_blocks {α : Type} (blocks : List α) (gaps : List Nat) : List (List α) :=
  (List.range (gaps.length + 1)).map
    (fun seg_ind => in_seg_data_block blocks gaps (gaps.length + 1) seg_ind)

lemma in_seg_shift {α : Type} (blocks : List α) (x : Nat) (gaps : List Nat) (s : Nat) :
    in_seg_data_block blocks (x :: gaps) (gaps.length + 2) (s + 2) =
      in_seg_data_block blocks gaps (gaps.length + 1) (s + 1) := by
  have e1 : seg_first_bl (x :: gaps) (s + 2) = seg_first_bl gaps (s + 1) := by
    simp only [seg_first_bl, if_neg (by omega : ¬ s + 2 = 0), if_neg (by omega : ¬ s + 1 = 0)]
    have h1 : s + 2 - 1 = (s + 1 - 1) + 1 := by omega
    rw [h1, List.getD_cons_succ]
  have e2 : seg_last_bl (x :: gaps) (gaps.length + 2) blocks.length (s + 2) =
      seg_last_bl gaps (gaps.length + 1) blocks.length (s + 1) := by
    simp only [seg_last_bl]
    by_cases h : s + 1 < gaps.length
    · rw [if_pos (by omega), if_pos (by omega)]
      exact List.getD_cons_succ
    · rw [if_neg (by omega), if_neg (by omega)]
  simp only [in_seg_data_block, e1, e2]

lemma tail_join_eq_drop {α : Type} (gaps : List Nat) :
    ∀ (g : Nat) (blocks : List α), (∀ r ∈ gaps, g < r) → List.Pairwise (· < ·) gaps →
    ((List.range (gaps.length + 1)).map
        (fun s => in_seg_data_block blocks (g :: gaps) (gaps.length + 2) (s + 1))).flatten =
      blocks.drop (g + 1) := by
  induction gaps with
  | nil =>
    intro g blocks _ _
    have hfirst : seg_first_bl [g] 1 = g + 1 := by
      simp [seg_first_bl]
    have hlast : seg_last_bl [g] 2 blocks.length 1 = blocks.length - 1 := by
      simp [seg_last_bl]
    simp only [List.length_nil, Nat.zero_add]
    rw [show List.range 1 = [0] from rfl]
    simp only [List.map_cons, List.map_nil, List.flatten_cons, List.flatten_nil,
      List.append_nil, Nat.zero_add, in_seg_data_block, hfirst, hlast]
    apply List.take_of_length_le
    rw [List.length_drop]
    omega
  | cons r rest ih =>
    intro g blocks hg hpair
    have hgr : g < r := hg r (List.mem_cons_self r rest)
    have hrrest : ∀ x ∈ rest, r < x := (List.pairwise_cons.mp hpair).1
    have hpair2 : List.Pairwise (· < ·) rest := (List.pairwise_cons.mp hpair).2
    simp only [List.length_cons]
    rw [List.range_succ_eq_map]
    simp only [List.map_cons, List.map_map, List.flatten_cons, Nat.zero_add]
    have hhead : in_seg_data_block blocks (g :: r :: rest) (rest.length + 1 + 2) 1 =
        (blocks.drop (g + 1)).take (r - g) := by
      have hfirst : seg_first_bl (g :: r :: rest) 1 = g + 1 := by
        simp [seg_first_bl]
      have hlast : seg_last_bl (g :: r :: rest) (rest.length + 1 + 2) blocks.length 1 = r := by
        simp only [seg_last_bl, if_pos (by omega : 1 < rest.length + 1 + 2 - 1)]
        rfl
      simp only [in_seg_data_block, hfirst, hlast]
      congr 1
      omega
    have htail : ∀ s, ((fun s => in_seg_data_block blocks (g :: r :: rest)
          (rest.length + 1 + 2) (s + 1)) ∘ Nat.succ) s =
        in_seg_data_block blocks (r :: rest) (rest.length + 2) (s + 1) := by
      intro s
      show in_seg_data_block blocks (g :: r :: rest) ((r :: rest).length + 2) (s + 2) =
        in_seg_data_block blocks (r :: rest) ((r :: rest).length + 1) (s + 1)
      exact in_seg_shift blocks g (r :: rest) s
    rw [hhead, List.map_congr_left (fun s _ => htail s)]
    rw [ih r blocks hrrest hpair2]
    have hdd : blocks.drop (r + 1) = (blocks.drop (g + 1)).drop (r - g) := by
      rw [List.drop_drop]
      congr 1
      omega
    rw [hdd, List.take_append_drop]

/-- C5: for every channel that participates in segmentation, the
per-segment block sub-ranges obtained by splitting its block index at
the flagged gap indices partition the full block chain: concatenating
the sub-ranges of segments `0 .. nb_segment - 1` in order reconstructs
the channel's complete block index, with no block duplicated or
omitted.  The hypotheses state what `np.nonzero` guarantees about
`gaps_block_ind`: the flagged indices are strictly increasing and index
the inter-block array (of length `blocks.length - 1`). -/
theorem by_seg_partition {α : Type} (blocks : List α) (gaps : List Nat)
    (hpair : List.Pairwise (· < ·) gaps)
    (hbound : ∀ q ∈ gaps, q + 1 < blocks.length) :
    (by_seg_data_blocks blocks gaps).flatten = blocks := by
  cases gaps with
  | nil =>
    have hfirst : seg_first_bl [] 0 = 0 := rfl
    have hlast : seg_last_bl [] 1 blocks.length 0 = blocks.length - 1 := by
      simp [seg_last_bl]
    simp only [by_seg_data_blocks, List.length_nil, Nat.zero_add]
    rw [show List.range 1 = [0] from rfl]
    simp only [List.map_cons, List.map_nil, List.flatten_cons, List.flatten_nil,
      List.append_nil, in_seg_data_block, hfirst, hlast, List.drop_zero, Nat.sub_zero]
    apply List.take_of_length_le
    omega
  | cons g rest =>
    have hgrest : ∀ x ∈ rest, g < x := (List.pairwise_cons.mp hpair).1
    have hpair2 : List.Pairwise (· < ·) rest := (List.pairwise_cons.mp hpair).2
    simp only [by_seg_data_blocks, List.length_cons]
    rw [List.range_succ_eq_map]
    simp only [List.map_cons, List.map_map, List.flatten_cons]
    have hhead : in_seg_data_block blocks (g :: rest) (rest.length + 1 + 1) 0 =
        blocks.take (g + 1) := by
      have hfirst : seg_first_bl (g :: rest) 0 = 0 := rfl
      have hlast : seg_last_bl (g :: rest) (rest.length + 1 + 1) blocks.length 0 = g := by
        simp only [seg_last_bl, if_pos (by omega : 0 < rest.length + 1 + 1 - 1)]
        rfl
      simp only [in_seg_data_block, hfirst, hlast, List.drop_zero, Nat.sub_zero]
    have htail : ∀ s, ((fun seg_ind => in_seg_data_block blocks (g :: rest)
          (rest.length + 1 + 1) seg_ind) ∘ Nat.succ) s =
        in_seg_data_block blocks (g :: rest) (rest.length + 2) (s + 1) := by
      intro s
      rfl
    rw [hhead, List.map_congr_left (fun s _ => htail s)]
    rw [tail_join_eq_drop rest g blocks hgrest hpair2]
    exact List.take_append_drop (g + 1) blocks

/-- C5 witness: a chain of four blocks with a single flagged gap after
block 1 splits into `[b0, b1]` and `[b2, b3]`, whose concatenation is
the full chain. -/
theorem by_seg_partition_witness :
    (by_seg_data_blocks ([10, 20, 30, 40] : List Int) [1]).flatten = [10, 20, 30, 40] :=
  by_seg_partition [10, 20, 30, 40] [1] (by decide) (by decide)

/- ----------------------------------------------------------------- -/
/- Chunked signal read (`_get_analogsignal_chunk`, lines 415-461)     -/
/- ----------------------------------------------------------------- -/

/-- The segment-local `cumsum` column as recomputed at line 216:
`in_seg_data_block["cumsum"][1:] = np.cumsum(in_seg_data_block["size"][:-1])`
with `cumsum[0] = 0`, i.e. the exclusive prefix sums of the block sizes. -/
def cumsums : List Nat → List Nat
  | [] => []
  | s :: rest => 0 :: (cumsums rest).map (· + s)

/-- `np.searchsorted(a, v, side="right")` on a sorted array `a`: the
number of elements `≤ v` (the insertion point keeping `a` sorted, after
any run of entries equal to `v`).  It is only applied to `cumsums`
columns, which are sorted. -/
def searchsorted_right (a : List Nat) (v : Nat) : Nat :=
  a.countP (fun c => decide (c ≤ v))

/-- One iteration of the block loop of `_get_analogsignal_chunk` (lines
445-458): take the block's decoded payload, trim the right border when
the block is the last one of the iteration
(`border = data.size - (i_stop - cumsum); if border > 0: data = data[:-border]`),
then trim the left border when it is the first one
(`border = i_start - cumsum; data = data[border:]`).  The payload stands
for `self._memmap[ind0:ind1].view(dt)`, so its length is the block's
`size`; `data[:-border]` for `border > 0` is `take (data.length - border)`
and `data[border:]` (with `border ≥ 0` on every reachable path, since
`cumsum[bl0] ≤ i_start` by the searchsorted choice of `bl0`) is
`drop border`. -/
def block_chunk (payloads : List (List Int)) (cum : List Nat)
    (i_start i_stop bl0 bl1 bl : Nat) : List Int :=
  let data := payloads.getD bl []
  let data2 :=
    if bl = bl1 - 1 then
      let border : Int := (data.length : Int) - ((i_stop : Int) - (cum.getD bl 0 : Int))
      if 0 < border then data.take (data.length - border.toNat) else data
    else data
  if bl = bl0 then data2.drop (i_start - cum.getD bl 0) else data2

/-- The per-channel core of `_get_analogsignal_chunk`:
`bl0 = np.searchsorted(cumsum, i_start, side="right") - 1`,
`bl1 = np.searchsorted(cumsum, i_stop, side="right")`, then the
concatenation of the trimmed payloads of blocks `bl0 .. bl1 - 1`
(`for bl in range(bl0, bl1)`), the data one column of `raw_signals`
receives. -/
def get_analogsignal_chunk_chan (payloads : List (List Int)) (i_start i_stop : Nat) : List Int :=
  let cum := cumsums (payloads.map List.length)
  let bl0 := searchsorted_right cum i_start - 1
  let bl1 := searchsorted_right cum i_stop
  ((List.range' bl0 (bl1 - bl0)).map
    (block_chunk payloads cum i_start i_stop bl0 bl1)).flatten

/-- `_get_analogsignal_chunk` over a whole stream: one column per member
channel, in stream order (the matrix is represented column-wise; the
code preallocates `np.zeros((i_stop - i_start, len(chan_ids)))` and the
theorem shows each gathered column has exactly `i_stop - i_start`
entries). -/
def get_analogsignal_chunk (channels : List (List (List Int))) (i_start i_stop : Nat) :
    List (List Int) :=
  channels.map (fun payloads => get_analogsignal_chunk_chan payloads i_start i_stop)

lemma chunk_chan_def (payloads : List (List Int)) (a b : Nat) :
    get_analogsignal_chunk_chan payloads a b =
      ((List.range' (searchsorted_right (cumsums (payloads.map List.length)) a - 1)
          (searchsorted_right (cumsums (payloads.map List.length)) b -
            (searchsorted_right (cumsums (payloads.map List.length)) a - 1))).map
        (block_chunk payloads (cumsums (payloads.map List.length)) a b
          (searchsorted_right (cumsums (payloads.map List.length)) a - 1)
          (searchsorted_right (cumsums (payloads.map List.length)) b))).flatten := rfl

lemma length_cumsums (sizes : List Nat) : (cumsums sizes).length = sizes.length := by
  induction sizes with
  | nil => rfl
  | cons s rest ih => simp [cumsums, ih]

lemma ssr_cumsums_cons_le (s : Nat) (sizes : List Nat) (v : Nat) (h : s ≤ v) :
    searchsorted_right (cumsums (s :: sizes)) v =
      searchsorted_right (cumsums sizes) (v - s) + 1 := by
  show List.countP _ (0 :: (cumsums sizes).map (· + s)) = _
  rw [List.countP_cons, List.countP_map]
  have h0 : (fun c => decide (c ≤ v)) 0 = true := by simp
  rw [if_pos h0]
  have hcg : List.countP ((fun c => decide (c ≤ v)) ∘ (· + s)) (cumsums sizes) =
      List.countP (fun c => decide (c ≤ v - s)) (cumsums sizes) := by
    apply List.countP_congr
    intro c _
    simp only [Function.comp_apply, decide_eq_true_eq]
    omega
  rw [hcg]
  rfl

lemma ssr_cumsums_cons_lt (s : Nat) (sizes : List Nat) (v : Nat) (h : v < s) :
    searchsorted_right (cumsums (s :: sizes)) v = 1 := by
  show List.countP _ (0 :: (cumsums sizes).map (· + s)) = _
  rw [List.countP_cons, List.countP_map]
  have h0 : (fun c => decide (c ≤ v)) 0 = true := by simp
  rw [if_pos h0]
  have hz : List.countP ((fun c => decide (c ≤ v)) ∘ (· + s)) (cumsums sizes) = 0 := by
    rw [List.countP_eq_zero]
    intro c _
    simp only [Function.comp_apply, decide_eq_true_eq]
    omega
  rw [hz]

lemma ssr_le_length (sizes : List Nat) (v : Nat) :
    searchsorted_right (cumsums sizes) v ≤ sizes.length := by
  rw [← length_cumsums sizes]
  exact List.countP_le_length _

lemma ssr_pos (s : Nat) (sizes : List Nat) (v : Nat) :
    1 ≤ searchsorted_right (cumsums (s :: sizes)) v := by
  by_cases h : s ≤ v
  · rw [ssr_cumsums_cons_le s sizes v h]
    omega
  · rw [ssr_cumsums_cons_lt s sizes v (by omega)]

lemma ssr_mono (l : List Nat) (v w : Nat) (h : v ≤ w) :
    searchsorted_right l v ≤ searchsorted_right l w := by
  apply List.countP_mono_left
  intro x _
  simp only [decide_eq_true_eq]
  omega

lemma getD_map_add (l : List Nat) (s i : Nat) (h : i < l.length) :
    (l.map (· + s)).getD i 0 = l.getD i 0 + s := by
  induction l generalizing i with
  | nil => simp at h
  | cons a rest ih =>
    cases i with
    | zero => rfl
    | succ j =>
      simp only [List.map_cons, List.getD_cons_succ]
      exact ih j (by simpa using h)

lemma getD_map_length (ps : List (List Int)) (j : Nat) :
    (ps.map List.length).getD j 0 = (ps.getD j []).length := by
  induction ps generalizing j with
  | nil => simp [List.getD_nil]
  | cons p rest ih =>
    cases j with
    | zero => rfl
    | succ j2 =>
      simp only [List.map_cons, List.getD_cons_succ]
      exact ih j2

lemma sizes_zero_of_lt_ssr_zero (sizes : List Nat) (j : Nat)
    (h : j + 1 < searchsorted_right (cumsums sizes) 0) : sizes.getD j 0 = 0 := by
  induction sizes generalizing j with
  | nil => simp [searchsorted_right, cumsums] at h
  | cons s rest ih =>
    by_cases hs : s ≤ 0
    · have hs0 : s = 0 := by omega
      subst hs0
      rw [ssr_cumsums_cons_le 0 rest 0 (le_refl 0), Nat.sub_zero] at h
      cases j with
      | zero => rfl
      | succ j2 =>
        simp only [List.getD_cons_succ]
        exact ih j2 (by omega)
    · rw [ssr_cumsums_cons_lt s rest 0 (by omega)] at h
      omega

lemma block_chunk_of_empty (payloads : List (List Int)) (cum : List Nat)
    (a b bl0 bl1 bl : Nat) (h : payloads.getD bl [] = []) :
    block_chunk payloads cum a b bl0 bl1 bl = [] := by
  rw [List.getD_eq_getElem?_getD] at h
  simp [block_chunk, h]

lemma range'_succ_shift (k n : Nat) :
    List.range' (k + 1) n = (List.range' k n).map Nat.succ := by
  induction n generalizing k with
  | zero => rfl
  | succ m ih =>
    rw [List.range'_succ, List.range'_succ, ih (k + 1), List.map_cons]

lemma range'_pred_shift (k m : Nat) (hk : 1 ≤ k) :
    List.range' k m = (List.range' (k - 1) m).map Nat.succ := by
  obtain ⟨k2, rfl⟩ : ∃ k2, k = k2 + 1 := ⟨k - 1, by omega⟩
  simp only [Nat.add_sub_cancel]
  exact range'_succ_shift k2 m

lemma range'_one_shift (n : Nat) :
    List.range' 1 n = (List.range' 0 n).map Nat.succ :=
  range'_succ_shift 0 n

lemma map_flatten_cons {β : Type} (f : Nat → List β) (x : Nat) (l : List Nat) :
    (List.map f (x :: l)).flatten = f x ++ (List.map f l).flatten := rfl

lemma block_chunk_zero (payloads : List (List Int)) (cum : List Nat) (a b : Nat)
    (hc : cum.getD 0 0 = 0) (hb : b ≤ (payloads.getD 0 []).length) :
    block_chunk payloads cum a b 0 1 0 = ((payloads.getD 0 []).take b).drop a := by
  simp only [block_chunk, if_true]
  rw [hc, Nat.sub_zero]
  by_cases hlt : b < (payloads.getD 0 []).length
  · rw [if_pos (by omega)]
    congr 1
    congr 1
    omega
  · rw [if_neg (by omega)]
    have hbe : b = (payloads.getD 0 []).length := by omega
    rw [hbe, List.take_length]

lemma block_chunk_shift (p : List Int) (qs : List (List Int)) (a b ta tb bl : Nat)
    (hS : p.length ≤ b) (hta : 1 ≤ ta) (htb : 1 ≤ tb) (hbl : bl < qs.length) :
    block_chunk (p :: qs) (cumsums ((p :: qs).map List.length)) a b ta (tb + 1) (bl + 1) =
      block_chunk qs (cumsums (qs.map List.length)) (a - p.length) (b - p.length)
        (ta - 1) tb bl := by
  have hcum : (cumsums ((p :: qs).map List.length)).getD (bl + 1) 0 =
      (cumsums (qs.map List.length)).getD bl 0 + p.length := by
    show (0 :: (cumsums (qs.map List.length)).map (· + p.length)).getD (bl + 1) 0 = _
    rw [List.getD_cons_succ]
    exact getD_map_add _ _ _ (by rw [length_cumsums, List.length_map]; exact hbl)
  have hdata : (p :: qs).getD (bl + 1) ([] : List Int) = qs.getD bl [] := List.getD_cons_succ
  simp only [block_chunk, hdata, hcum]
  have hborder : ((qs.getD bl []).length : Int) -
      ((b : Int) - (((cumsums (qs.map List.length)).getD bl 0 + p.length : Nat) : Int)) =
      ((qs.getD bl []).length : Int) -
        (((b - p.length : Nat) : Int) - (((cumsums (qs.map List.length)).getD bl 0 : Nat) : Int)) := by
    omega
  have hdrop : a - ((cumsums (qs.map List.length)).getD bl 0 + p.length) =
      (a - p.length) - (cumsums (qs.map List.length)).getD bl 0 := by
    omega
  rw [hborder, hdrop]
  by_cases h1 : bl = tb - 1
  · rw [if_pos (show bl + 1 = tb + 1 - 1 by omega), if_pos h1]
    by_cases h2 : bl = ta - 1
    · rw [if_pos (show bl + 1 = ta by omega), if_pos h2]
    · rw [if_neg (show ¬ bl + 1 = ta by omega), if_neg h2]
  · rw [if_neg (show ¬ bl + 1 = tb + 1 - 1 by omega), if_neg h1]
    by_cases h2 : bl = ta - 1
    · rw [if_pos (show bl + 1 = ta by omega), if_pos h2]
    · rw [if_neg (show ¬ bl + 1 = ta by omega), if_neg h2]

lemma block_chunk_tail_zero (p : List Int) (qs : List (List Int)) (a b tb t0 bl : Nat)
    (hS : p.length ≤ b) (htb : 1 ≤ tb) (hbl : bl < qs.length) :
    block_chunk (p :: qs) (cumsums ((p :: qs).map List.length)) a b 0 (tb + 1) (bl + 1) =
      block_chunk qs (cumsums (qs.map List.length)) 0 (b - p.length) t0 tb bl := by
  have hcum : (cumsums ((p :: qs).map List.length)).getD (bl + 1) 0 =
      (cumsums (qs.map List.length)).getD bl 0 + p.length := by
    show (0 :: (cumsums (qs.map List.length)).map (· + p.length)).getD (bl + 1) 0 = _
    rw [List.getD_cons_succ]
    exact getD_map_add _ _ _ (by rw [length_cumsums, List.length_map]; exact hbl)
  have hdata : (p :: qs).getD (bl + 1) ([] : List Int) = qs.getD bl [] := List.getD_cons_succ
  simp only [block_chunk, hdata, hcum]
  have hborder : ((qs.getD bl []).length : Int) -
      ((b : Int) - (((cumsums (qs.map List.length)).getD bl 0 + p.length : Nat) : Int)) =
      ((qs.getD bl []).length : Int) -
        (((b - p.length : Nat) : Int) - (((cumsums (qs.map List.length)).getD bl 0 : Nat) : Int)) := by
    omega
  rw [hborder]
  rw [if_neg (show ¬ bl + 1 = 0 by omega)]
  by_cases h1 : bl = tb - 1
  · rw [if_pos (show bl + 1 = tb + 1 - 1 by omega), if_pos h1]
    by_cases h2 : bl = t0
    · rw [if_pos h2, Nat.zero_sub, List.drop_zero]
    · rw [if_neg h2]
  · rw [if_neg (show ¬ bl + 1 = tb + 1 - 1 by omega), if_neg h1]
    by_cases h2 : bl = t0
    · rw [if_pos h2, Nat.zero_sub, List.drop_zero]
    · rw [if_neg h2]

lemma chunk_chan_eq (payloads : List (List Int)) : ∀ (a b : Nat),
    a ≤ b → b ≤ (payloads.map List.length).sum →
    get_analogsignal_chunk_chan payloads a b =
      ((payloads.flatten).drop a).take (b - a) := by
  induction payloads with
  | nil =>
    intro a b hab hb
    have hb0 : b = 0 := by simp at hb; omega
    have ha0 : a = 0 := by omega
    subst hb0
    subst ha0
    rfl
  | cons p ps ih =>
    intro a b hab hb
    have hsum : ((p :: ps).map List.length).sum = p.length + (ps.map List.length).sum := by
      simp
    cases ps with
    | nil =>
      have hbp : b ≤ p.length := by simp at hb; omega
      have hssr : ∀ v, searchsorted_right (cumsums [p.length]) v = 1 := by
        intro v
        by_cases h : p.length ≤ v
        · rw [ssr_cumsums_cons_le _ _ _ h]
          rfl
        · exact ssr_cumsums_cons_lt _ _ _ (by omega)
      rw [chunk_chan_def]
      rw [show (([p] : List (List Int)).map List.length) = [p.length] from rfl]
      rw [hssr, hssr]
      rw [show List.range' (1 - 1) (1 - (1 - 1)) = [0] from rfl]
      simp only [List.map_cons, List.map_nil, List.flatten_cons, List.flatten_nil,
        List.append_nil]
      rw [show (1 : Nat) - 1 = 0 from rfl]
      rw [block_chunk_zero [p] (cumsums [p.length]) a b rfl
        (by simp only [List.getD_cons_zero]; exact hbp)]
      simp only [List.getD_cons_zero]
      rw [List.drop_take]
    | cons q ps2 =>
      by_cases hsa : p.length ≤ a
      · -- the head block lies entirely before the requested range
        have hsb : p.length ≤ b := le_trans hsa hab
        have hb2 : b - p.length ≤ ((q :: ps2).map List.length).sum := by
          rw [hsum] at hb
          omega
        have hta : 1 ≤ searchsorted_right (cumsums ((q :: ps2).map List.length))
            (a - p.length) := ssr_pos q.length (ps2.map List.length) _
        have htb : 1 ≤ searchsorted_right (cumsums ((q :: ps2).map List.length))
            (b - p.length) := ssr_pos q.length (ps2.map List.length) _
        have htatb : searchsorted_right (cumsums ((q :: ps2).map List.length)) (a - p.length) ≤
            searchsorted_right (cumsums ((q :: ps2).map List.length)) (b - p.length) :=
          ssr_mono _ _ _ (by omega)
        have htb_le : searchsorted_right (cumsums ((q :: ps2).map List.length))
            (b - p.length) ≤ (q :: ps2).length := by
          have h2 := ssr_le_length ((q :: ps2).map List.length) (b - p.length)
          simpa using h2
        have key : get_analogsignal_chunk_chan (p :: q :: ps2) a b =
            get_analogsignal_chunk_chan (q :: ps2) (a - p.length) (b - p.length) := by
          rw [chunk_chan_def, chunk_chan_def]
          rw [show ((p :: q :: ps2).map List.length) =
            p.length :: ((q :: ps2).map List.length) from rfl]
          rw [ssr_cumsums_cons_le _ _ _ hsa, ssr_cumsums_cons_le _ _ _ hsb]
          rw [Nat.add_sub_cancel]
          rw [show searchsorted_right (cumsums ((q :: ps2).map List.length)) (b - p.length) + 1 -
              searchsorted_right (cumsums ((q :: ps2).map List.length)) (a - p.length) =
              searchsorted_right (cumsums ((q :: ps2).map List.length)) (b - p.length) -
                (searchsorted_right (cumsums ((q :: ps2).map List.length)) (a - p.length) - 1)
            by omega]
          rw [range'_pred_shift _ _ hta]
          rw [List.map_map]
          have hpt : ∀ bl ∈ List.range'
              (searchsorted_right (cumsums ((q :: ps2).map List.length)) (a - p.length) - 1)
              (searchsorted_right (cumsums ((q :: ps2).map List.length)) (b - p.length) -
                (searchsorted_right (cumsums ((q :: ps2).map List.length)) (a - p.length) - 1)),
              (block_chunk (p :: q :: ps2)
                  (cumsums (p.length :: (q :: ps2).map List.length)) a b
                  (searchsorted_right (cumsums ((q :: ps2).map List.length)) (a - p.length))
                  (searchsorted_right (cumsums ((q :: ps2).map List.length)) (b - p.length) + 1)
                ∘ Nat.succ) bl =
              block_chunk (q :: ps2) (cumsums ((q :: ps2).map List.length))
                (a - p.length) (b - p.length)
                (searchsorted_right (cumsums ((q :: ps2).map List.length)) (a - p.length) - 1)
                (searchsorted_right (cumsums ((q :: ps2).map List.length)) (b - p.length))
                bl := by
            intro bl hbl
            rw [List.mem_range'_1] at hbl
            have hblq : bl < (q :: ps2).length := by omega
            exact block_chunk_shift p (q :: ps2) a b _ _ bl hsb hta htb hblq
          rw [List.map_congr_left hpt]
        rw [key, ih (a - p.length) (b - p.length) (by omega) hb2]
        rw [show (p :: q :: ps2).flatten = p ++ (q :: ps2).flatten from rfl]
        rw [List.drop_append_eq_append_drop]
        rw [List.drop_eq_nil_of_le hsa, List.nil_append]
        congr 1
        omega
      · by_cases hb1 : b < p.length
        · -- the whole range lies inside the head block
          rw [chunk_chan_def]
          rw [show ((p :: q :: ps2).map List.length) =
            p.length :: ((q :: ps2).map List.length) from rfl]
          rw [ssr_cumsums_cons_lt _ _ _ (by omega), ssr_cumsums_cons_lt _ _ _ hb1]
          rw [show List.range' (1 - 1) (1 - (1 - 1)) = [0] from rfl]
          rw [map_flatten_cons]
          rw [show (List.map (block_chunk (p :: q :: ps2)
              (cumsums (p.length :: (q :: ps2).map List.length)) a b (1 - 1) 1)
              ([] : List Nat)).flatten = [] from rfl]
          rw [List.append_nil]
          rw [show (1 : Nat) - 1 = 0 from rfl]
          rw [block_chunk_zero (p :: q :: ps2)
            (cumsums (p.length :: (q :: ps2).map List.length)) a b rfl
            (by simp only [List.getD_cons_zero]; omega)]
          simp only [List.getD_cons_zero]
          rw [show (p :: q :: ps2).flatten = p ++ (q :: ps2).flatten from rfl]
          rw [List.drop_append_eq_append_drop]
          rw [show a - p.length = 0 by omega, List.drop_zero]
          rw [List.take_append_eq_append_take]
          rw [show b - a - (List.drop a p).length = 0 by rw [List.length_drop]; omega]
          rw [List.take_zero, List.append_nil]
          rw [List.drop_take]
        · -- the range starts inside the head block and extends past it
          have hsb : p.length ≤ b := by omega
          have hb2 : b - p.length ≤ ((q :: ps2).map List.length).sum := by
            rw [hsum] at hb
            omega
          have htb : 1 ≤ searchsorted_right (cumsums ((q :: ps2).map List.length))
              (b - p.length) := ssr_pos q.length (ps2.map List.length) _
          have ht0 : 1 ≤ searchsorted_right (cumsums ((q :: ps2).map List.length)) 0 :=
            ssr_pos q.length (ps2.map List.length) 0
          have ht0tb : searchsorted_right (cumsums ((q :: ps2).map List.length)) 0 ≤
              searchsorted_right (cumsums ((q :: ps2).map List.length)) (b - p.length) :=
            ssr_mono _ _ _ (Nat.zero_le _)
          have htb_le : searchsorted_right (cumsums ((q :: ps2).map List.length))
              (b - p.length) ≤ (q :: ps2).length := by
            have h2 := ssr_le_length ((q :: ps2).map List.length) (b - p.length)
            simpa using h2
          rw [chunk_chan_def]
          rw [show ((p :: q :: ps2).map List.length) =
            p.length :: ((q :: ps2).map List.length) from rfl]
          rw [ssr_cumsums_cons_lt _ _ _ (by omega), ssr_cumsums_cons_le _ _ _ hsb]
          rw [show (1 : Nat) - 1 = 0 from rfl]
          rw [Nat.sub_zero]
          rw [List.range'_succ]
          rw [map_flatten_cons]
          have hhead : block_chunk (p :: q :: ps2)
              (cumsums (p.length :: (q :: ps2).map List.length)) a b 0
              (searchsorted_right (cumsums ((q :: ps2).map List.length)) (b - p.length) + 1)
              0 = p.drop a := by
            simp only [block_chunk]
            rw [if_neg (show ¬ (0 : Nat) =
              searchsorted_right (cumsums ((q :: ps2).map List.length)) (b - p.length) + 1 - 1
              by omega)]
            rfl
          rw [hhead]
          rw [range'_succ_shift 0, List.map_map]
          have hpt : ∀ bl ∈ List.range' 0
              (searchsorted_right (cumsums ((q :: ps2).map List.length)) (b - p.length)),
              (block_chunk (p :: q :: ps2)
                  (cumsums (p.length :: (q :: ps2).map List.length)) a b 0
                  (searchsorted_right (cumsums ((q :: ps2).map List.length)) (b - p.length) + 1)
                ∘ Nat.succ) bl =
              block_chunk (q :: ps2) (cumsums ((q :: ps2).map List.length)) 0 (b - p.length)
                (searchsorted_right (cumsums ((q :: ps2).map List.length)) 0 - 1)
                (searchsorted_right (cumsums ((q :: ps2).map List.length)) (b - p.length))
                bl := by
            intro bl hbl
            rw [List.mem_range'_1] at hbl
            have hblq : bl < (q :: ps2).length := by omega
            exact block_chunk_tail_zero p (q :: ps2) a b _ _ bl hsb htb hblq
          rw [List.map_congr_left hpt]
          have hsplit : List.range' 0
              (searchsorted_right (cumsums ((q :: ps2).map List.length)) (b - p.length)) =
              List.range' 0 (searchsorted_right (cumsums ((q :: ps2).map List.length)) 0 - 1) ++
              List.range' (searchsorted_right (cumsums ((q :: ps2).map List.length)) 0 - 1)
                (searchsorted_right (cumsums ((q :: ps2).map List.length)) (b - p.length) -
                  (searchsorted_right (cumsums ((q :: ps2).map List.length)) 0 - 1)) := by
            have h2 := List.range'_append 0
              (searchsorted_right (cumsums ((q :: ps2).map List.length)) 0 - 1)
              (searchsorted_right (cumsums ((q :: ps2).map List.length)) (b - p.length) -
                (searchsorted_right (cumsums ((q :: ps2).map List.length)) 0 - 1)) 1
            simp only [one_mul, Nat.zero_add] at h2
            rw [show searchsorted_right (cumsums ((q :: ps2).map List.length)) (b - p.length) -
                (searchsorted_right (cumsums ((q :: ps2).map List.length)) 0 - 1) +
                (searchsorted_right (cumsums ((q :: ps2).map List.length)) 0 - 1) =
              searchsorted_right (cumsums ((q :: ps2).map List.length)) (b - p.length)
              by omega] at h2
            exact h2.symm
          rw [hsplit, List.map_append, List.flatten_append]
          have hnil : ((List.range' 0
              (searchsorted_right (cumsums ((q :: ps2).map List.length)) 0 - 1)).map
                (block_chunk (q :: ps2) (cumsums ((q :: ps2).map List.length)) 0
                  (b - p.length)
                  (searchsorted_right (cumsums ((q :: ps2).map List.length)) 0 - 1)
                  (searchsorted_right (cumsums ((q :: ps2).map List.length))
                    (b - p.length)))).flatten = [] := by
            rw [List.flatten_eq_nil_iff]
            intro l hl
            rw [List.mem_map] at hl
            obtain ⟨bl, hbl, rfl⟩ := hl
            rw [List.mem_range'_1] at hbl
            apply block_chunk_of_empty
            have hz : ((q :: ps2).map List.length).getD bl 0 = 0 :=
              sizes_zero_of_lt_ssr_zero _ bl (by omega)
            rw [getD_map_length] at hz
            exact List.length_eq_zero.mp hz
          rw [hnil, List.nil_append]
          rw [← chunk_chan_def (q :: ps2) 0 (b - p.length)]
          rw [ih 0 (b - p.length) (Nat.zero_le _) hb2]
          rw [List.drop_zero, Nat.sub_zero]
          rw [show (p :: q :: ps2).flatten = p ++ (q :: ps2).flatten from rfl]
          rw [List.drop_append_eq_append_drop]
          rw [show a - p.length = 0 by omega, List.drop_zero]
          rw [List.take_append_eq_append_take]
          rw [List.take_of_length_le
            (show (List.drop a p).length ≤ b - a by rw [List.length_drop]; omega)]
          congr 1
          congr 1
          rw [List.length_drop]
          omega

lemma map_eq_zipWith_append {β : Type} (l : List β) (f g h : β → List Int)
    (hfg : ∀ p ∈ l, f p = g p ++ h p) :
    l.map f = List.zipWith (· ++ ·) (l.map g) (l.map h) := by
  induction l with
  | nil => rfl
  | cons c cs ih =>
    simp only [List.map_cons, List.zipWith_cons_cons]
    rw [hfg c (List.mem_cons_self c cs), ih (fun p hp => hfg p (List.mem_cons_of_mem c hp))]

/-- C3: the chunked signal read is range-additive: for every stream (a
list of member channels, each given by the payloads of its per-segment
blocks) and every `0 ≤ k ≤ n` with `n` within the segment's signal size
of every member, reading `[0, n)` yields the same matrix as vertically
concatenating the reads of `[0, k)` and `[k, n)` (the matrix is held
column-wise, so vertical concatenation is columnwise append); moreover
each read is dense: every column of the `[0, n)` read has exactly `n`
rows, every column of the `[k, n)` read has exactly `n - k` rows, and
there is one column per member channel. -/
theorem chunk_read_range_additive (channels : List (List (List Int))) (k n : Nat)
    (hkn : k ≤ n) (hn : ∀ p ∈ channels, n ≤ (p.map List.length).sum) :
    get_analogsignal_chunk channels 0 n =
        List.zipWith (· ++ ·) (get_analogsignal_chunk channels 0 k)
          (get_analogsignal_chunk channels k n) ∧
      (∀ col ∈ get_analogsignal_chunk channels 0 n, col.length = n) ∧
      (∀ col ∈ get_analogsignal_chunk channels k n, col.length = n - k) ∧
      (get_analogsignal_chunk channels k n).length = channels.length := by
  refine ⟨?_, ?_, ?_, ?_⟩
  · apply map_eq_zipWith_append
    intro p hp
    have hc := hn p hp
    rw [chunk_chan_eq p 0 n (Nat.zero_le _) hc,
        chunk_chan_eq p 0 k (Nat.zero_le _) (le_trans hkn hc),
        chunk_chan_eq p k n hkn hc]
    simp only [List.drop_zero, Nat.sub_zero]
    rw [← List.take_add]
    congr 1
    omega
  · intro col hcol
    obtain ⟨p, hp, rfl⟩ := List.mem_map.mp hcol
    rw [chunk_chan_eq p 0 n (Nat.zero_le _) (hn p hp)]
    simp only [List.drop_zero, Nat.sub_zero, List.length_take]
    have hlen : n ≤ p.flatten.length := by
      rw [List.length_flatten]
      exact hn p hp
    omega
  · intro col hcol
    obtain ⟨p, hp, rfl⟩ := List.mem_map.mp hcol
    rw [chunk_chan_eq p k n hkn (hn p hp)]
    simp only [List.length_take, List.length_drop]
    have hlen : n ≤ p.flatten.length := by
      rw [List.length_flatten]
      exact hn p hp
    omega
  · exact List.length_map channels _

/-- C3 witness: a single-channel stream with blocks `[1, 2]` and
`[3, 4, 5]`, split point `k = 2`, full range `n = 5`. -/
theorem chunk_read_range_additive_witness :
    get_analogsignal_chunk [[[1, 2], [3, 4, 5]]] 0 5 =
        List.zipWith (· ++ ·) (get_analogsignal_chunk [[[1, 2], [3, 4, 5]]] 0 2)
          (get_analogsignal_chunk [[[1, 2], [3, 4, 5]]] 2 5) ∧
      (∀ col ∈ get_analogsignal_chunk [[[1, 2], [3, 4, 5]]] 0 5, col.length = 5) ∧
      (∀ col ∈ get_analogsignal_chunk [[[1, 2], [3, 4, 5]]] 2 5, col.length = 5 - 2) ∧
      (get_analogsignal_chunk [[[1, 2], [3, 4, 5]]] 2 5).length =
        ([[[1, 2], [3, 4, 5]]] : List (List (List Int))).length :=
  chunk_read_range_additive [[[1, 2], [3, 4, 5]]] 2 5 (by decide) (by decide)

end Spike2
